import Mathlib

/-!
Shallow embedding of `documember.py` (thegamecracks/documember).

The Python program walks a live module object and renders an indented text
summary. Its two stages are embedded here:

* the tree builder `parse_module` / `_get_module_members`, producing a
  `ModuleSummary` tree from a `PyModule` value, and
* the formatter `format_module_summary` / `_format_module_members` /
  `_format_class_summary` / `_format_class_members`, producing the list of
  output lines.

Live Python objects are modelled as explicit data: a module carries its
`__name__`, `__package__`, optional `__all__`, docstring and attribute
mapping (`vars(module)` as an ordered association list); classes carry the
name, the `__name__` of `inspect.getmodule`, the docstring, `__annotations__`
keys and the `vars(cls)` mapping; functions carry name, declaring-module name
and docstring. `inspect.getdoc` / `__doc__` are both modelled by the stored
optional docstring (whitespace cleaning is out of scope). Python string
operations are modelled on the underlying character lists so that every
definition evaluates inside the kernel.
-/

/-! ## Python string operations -/

/-- Model of Python `s.startswith(pre)`. -/
def pyStartsWith (s pre : String) : Bool :=
  pre.data.isPrefixOf s.data

/-- Helper for `pySplitChar`: split a character list at every occurrence of `c`. -/
def splitCharAux (c : Char) : List Char → List Char → List (List Char)
  | [], acc => [acc.reverse]
  | x :: xs, acc =>
    if x = c then acc.reverse :: splitCharAux c xs []
    else splitCharAux c xs (x :: acc)

/-- Model of Python `s.split(c)` for a one-character separator. -/
def pySplitChar (s : String) (c : Char) : List String :=
  (splitCharAux c s.data []).map String.mk

/-- Model of Python `s.splitlines()` (newline terminators only): the empty
string yields no lines, and a single trailing newline does not produce a
trailing empty line. -/
def pySplitlines (s : String) : List String :=
  if s.data = [] then []
  else if (pySplitChar s '\n').getLast? = some "" then (pySplitChar s '\n').dropLast
  else pySplitChar s '\n'

/-- Lexicographic comparison of character lists by code point, the order
Python uses to compare strings. -/
def lexLe : List Char → List Char → Bool
  | [], _ => true
  | _ :: _, [] => false
  | a :: as, b :: bs =>
    if a.toNat < b.toNat then true
    else if b.toNat < a.toNat then false
    else lexLe as bs

/-- Model of Python string `<=` (lexicographic by code point). -/
def strLe (a b : String) : Bool :=
  lexLe a.data b.data

theorem lexLe_total : ∀ a b : List Char, lexLe a b = true ∨ lexLe b a = true
  | [], _ => Or.inl rfl
  | _ :: _, [] => Or.inr rfl
  | a :: as, b :: bs => by
    simp only [lexLe]
    rcases Nat.lt_trichotomy a.toNat b.toNat with h | h | h
    · simp [h]
    · rw [h]
      simp only [Nat.lt_irrefl, if_false]
      exact lexLe_total as bs
    · simp [h, Nat.lt_asymm h]

theorem lexLe_trans : ∀ a b c : List Char,
    lexLe a b = true → lexLe b c = true → lexLe a c = true
  | [], _, _, _, _ => rfl
  | _ :: _, [], _, hab, _ => by simp [lexLe] at hab
  | _ :: _, _ :: _, [], _, hbc => by simp [lexLe] at hbc
  | a :: as, b :: bs, c :: cs, hab, hbc => by
    simp only [lexLe] at hab hbc ⊢
    by_cases h1 : a.toNat < b.toNat
    · by_cases h2 : b.toNat < c.toNat
      · simp [Nat.lt_trans h1 h2]
      · by_cases h2' : c.toNat < b.toNat
        · rw [if_neg h2, if_pos h2'] at hbc
          exact absurd hbc (by simp)
        · have h3 : a.toNat < c.toNat := by omega
          simp [h3]
    · by_cases h1' : b.toNat < a.toNat
      · rw [if_neg h1, if_pos h1'] at hab
        exact absurd hab (by simp)
      · by_cases h2 : b.toNat < c.toNat
        · have h3 : a.toNat < c.toNat := by omega
          simp [h3]
        · by_cases h2' : c.toNat < b.toNat
          · rw [if_neg h2, if_pos h2'] at hbc
            exact absurd hbc (by simp)
          · rw [if_neg h1, if_neg h1'] at hab
            rw [if_neg h2, if_neg h2'] at hbc
            have h3 : ¬ a.toNat < c.toNat := by omega
            have h3' : ¬ c.toNat < a.toNat := by omega
            rw [if_neg h3, if_neg h3']
            exact lexLe_trans as bs cs hab hbc

/-! ## Data model of the inspected object graph -/

/-- A Python function object: its `__name__`, the `__name__` of
`inspect.getmodule(f)` (`none` when no module is found) and its docstring. -/
structure PyFunction where
  name : String
  modName : Option String
  doc : Option String
deriving DecidableEq

/-- A value found in `vars(cls)`: either a function (with its docstring) or a
plain attribute.  The formatter only distinguishes these two shapes. -/
inductive ClsMember where
  | func (doc : Option String)
  | attr
deriving DecidableEq

/-- A Python class object: `__name__`, the `__name__` of
`inspect.getmodule(cls)` (`none` when no module is found), `__doc__`, the
keys of `__annotations__` in declaration order, and `vars(cls)` in
declaration order. -/
structure PyClass where
  name : String
  modName : Option String
  doc : Option String
  annotations : List String
  members : List (String × ClsMember)
deriving DecidableEq

mutual
/-- A Python module object: `__name__`, `__package__`, optional `__all__`,
the docstring as `inspect.getdoc` returns it, and `vars(module)` as an
ordered association list (Python dict keys are unique). -/
inductive PyModule where
  | mk (name : String) (package : String) (all : Option (List String))
      (doc : Option String) (attrs : List (String × PyValue))

/-- A value found in `vars(module)`: a module, a class, a function, or
anything else (which the builder silently ignores). -/
inductive PyValue where
  | mod (m : PyModule)
  | cls (c : PyClass)
  | func (f : PyFunction)
  | other
end

def PyModule.name : PyModule → String
  | .mk n _ _ _ _ => n

def PyModule.package : PyModule → String
  | .mk _ p _ _ _ => p

def PyModule.all : PyModule → Option (List String)
  | .mk _ _ a _ _ => a

def PyModule.attrs : PyModule → List (String × PyValue)
  | .mk _ _ _ _ at_ => at_

/-- The summary tree node produced by the builder (`ModuleSummary` in the
source). -/
inductive ModuleSummary where
  | mk (name qualname : String) (all : Option (List String)) (doc : String)
      (submodules : List ModuleSummary) (classes : List PyClass)
      (functions : List PyFunction)

def ModuleSummary.name : ModuleSummary → String
  | .mk n _ _ _ _ _ _ => n

def ModuleSummary.qualname : ModuleSummary → String
  | .mk _ q _ _ _ _ _ => q

def ModuleSummary.all : ModuleSummary → Option (List String)
  | .mk _ _ a _ _ _ _ => a

def ModuleSummary.doc : ModuleSummary → String
  | .mk _ _ _ d _ _ _ => d

def ModuleSummary.submodules : ModuleSummary → List ModuleSummary
  | .mk _ _ _ _ s _ _ => s

def ModuleSummary.classes : ModuleSummary → List PyClass
  | .mk _ _ _ _ _ c _ => c

def ModuleSummary.functions : ModuleSummary → List PyFunction
  | .mk _ _ _ _ _ _ f => f

/-! ## Tree builder

`parse_module` recurses into submodule values.  To keep the recursion
structural, every module value appearing in `vars(module)` is parsed first
(`parseVal` / `parseAttrs`), and the member selection, sorting and
classification then work on the pre-parsed attribute list.  Parsing is pure,
so this is observably identical to the source, which parses a submodule at
the moment it is classified. -/

/-- A pre-parsed attribute value: module values carry their `__package__`
and their parsed summary. -/
inductive PreVal where
  | mod (package : String) (summary : ModuleSummary)
  | cls (c : PyClass)
  | func (f : PyFunction)
  | other

/-- `inspect.ismodule` on a pre-parsed value. -/
def isPreModule : PreVal → Bool
  | .mod _ _ => true
  | _ => false

/-- `getattr(value, "__package__", "")`: only module objects carry a
`__package__` attribute. -/
def pkgOfPre : PreVal → String
  | .mod p _ => p
  | _ => ""

/-- The sorting key `by_type` of `_get_module_members`:
`(not inspect.ismodule(value), name)` — modules first, then by name. -/
def by_type_value (nv : String × PreVal) : Bool × String :=
  (!(isPreModule nv.2), nv.1)

/-- Lexicographic comparison of `(Bool, String)` keys (`False < True`,
strings by code point), as Python compares the tuples. -/
def pairLe (x y : Bool × String) : Bool :=
  match x.1, y.1 with
  | false, true => true
  | true, false => false
  | _, _ => strLe x.2 y.2

/-- The order in which `_get_module_members` sorts the member list. -/
def memberLe (x y : String × PreVal) : Prop :=
  pairLe (by_type_value x) (by_type_value y) = true

instance : DecidableRel memberLe := fun x y =>
  inferInstanceAs (Decidable (_ = true))

/-- `_get_module_members`: restrict `vars(module)` to the keys of `__all__`
when one is supplied, then sort modules-first-then-by-name.  (In the source
the restriction is the set intersection `vars(module).keys() & set(all_)`
followed by the sort; since distinct names have distinct sort keys, the
sorted result does not depend on the set's iteration order.) -/
def _get_module_members (attrs : List (String × PreVal)) :
    Option (List String) → List (String × PreVal)
  | none => List.insertionSort memberLe attrs
  | some al => List.insertionSort memberLe (attrs.filter fun nv => al.contains nv.1)

/-- The member list `parse_module` goes on to classify: the export list is
passed through only when `ignore_all` is false. -/
def selectedMembers (ignore_all : Bool) (all_ : Option (List String))
    (attrs : List (String × PreVal)) : List (String × PreVal) :=
  _get_module_members attrs (if ignore_all then none else all_)

/-- The classification loop of `parse_module`: each member becomes a
submodule when its `__package__` starts with the parent module's `__name__`,
else a class when it is a class, else a function when it is a function, and
is otherwise dropped.  (A non-module value can pass the `__package__` test
only when the parent's name is empty, where the source would attempt to
recurse into a non-module; that unreachable corner is dropped here.) -/
def classifyMembers (qualname : String) :
    List (String × PreVal) → List ModuleSummary × List PyClass × List PyFunction
  | [] => ([], [], [])
  | (_, v) :: rest =>
    let r := classifyMembers qualname rest
    if pyStartsWith (pkgOfPre v) qualname then
      match v with
      | .mod _ s => (s :: r.1, r.2.1, r.2.2)
      | _ => r
    else
      match v with
      | .cls c => (r.1, c :: r.2.1, r.2.2)
      | .func f => (r.1, r.2.1, f :: r.2.2)
      | _ => r

/-- The body of `parse_module` after all submodule values have been
pre-parsed: compute the short name, record `__all__` and the docstring, and
classify the selected members. -/
def buildSummary (ignore_all : Bool) (qualname : String)
    (all_ : Option (List String)) (doc : Option String)
    (pre : List (String × PreVal)) : ModuleSummary :=
  let shortName := (pySplitChar qualname '.').getLastD ""
  let members := selectedMembers ignore_all all_ pre
  let r := classifyMembers qualname members
  .mk shortName qualname all_ (doc.getD "") r.1 r.2.1 r.2.2

mutual
/-- Pre-parse one attribute value: module values are parsed recursively with
the same `ignore_all` policy. -/
def parseVal (ignore_all : Bool) : PyValue → PreVal
  | .mod m => .mod m.package (parse_module ignore_all m)
  | .cls c => .cls c
  | .func f => .func f
  | .other => .other

/-- Pre-parse `vars(module)`, keeping names and order. -/
def parseAttrs (ignore_all : Bool) : List (String × PyValue) → List (String × PreVal)
  | [] => []
  | (n, v) :: rest => (n, parseVal ignore_all v) :: parseAttrs ignore_all rest

/-- `parse_module`: build the summary tree of a module. -/
def parse_module (ignore_all : Bool) : PyModule → ModuleSummary
  | .mk name _pkg all_ doc attrs =>
    buildSummary ignore_all name all_ doc (parseAttrs ignore_all attrs)
end

/-! ## Docstring extractor and status suffixes -/

/-- The three docstring detail levels. -/
inductive DocstringDetail where
  | NONE
  | ONE_LINE
  | FULL
deriving DecidableEq

def _INDENT : String := "  "

/-- `_all_status`: the exports marker on a module's line. -/
def _all_status (module : ModuleSummary) : String :=
  if module.all.isNone then "" else " (__all__)"

/-- `_is_documented` on a `ModuleSummary` (its `doc` field is a plain string). -/
def _is_documented (m : ModuleSummary) : Bool :=
  m.doc != ""

/-- `_is_documented` on any other entity, reading its optional `__doc__`:
documented iff the docstring is neither absent nor empty. -/
def _is_documented_opt (doc : Option String) : Bool :=
  match doc with
  | none => false
  | some d => d != ""

/-- `_documented_status` on a `ModuleSummary`. -/
def _documented_status (m : ModuleSummary) : String :=
  if _is_documented m then "" else " (undocumented)"

/-- `_documented_status` on an entity with an optional `__doc__`. -/
def _documented_status_opt (doc : Option String) : String :=
  if _is_documented_opt doc then "" else " (undocumented)"

/-- `_docstring_snippet`: `NONE` emits nothing; an absent or empty docstring
emits nothing; `ONE_LINE` emits `lines[0]`; `FULL` emits every line. -/
def _docstring_snippet (doc : Option String) (detail : DocstringDetail) : List String :=
  match detail with
  | .NONE => []
  | .ONE_LINE =>
    match doc with
    | none => []
    | some d => if d = "" then [] else [(pySplitlines d).headD ""]
  | .FULL =>
    match doc with
    | none => []
    | some d => if d = "" then [] else pySplitlines d

/-! ## Formatter -/

/-- `inspect.isfunction` on a class member value. -/
def isFuncMember : ClsMember → Bool
  | .func _ => true
  | .attr => false

/-- The sorting key `by_type` of `_format_class_members`:
`(not inspect.isfunction(value), name)` — methods first, then by name. -/
def by_type_member (nv : String × ClsMember) : Bool × String :=
  (!(isFuncMember nv.2), nv.1)

/-- The order in which `_format_class_members` sorts `vars(cls)`. -/
def clsMemberLe (x y : String × ClsMember) : Prop :=
  pairLe (by_type_member x) (by_type_member y) = true

instance : DecidableRel clsMemberLe := fun x y =>
  inferInstanceAs (Decidable (_ = true))

/-- `_format_class_members`: annotation names (prefixed with a dot), then the
sorted `vars(cls)` entries — methods as `name()` with documented status and
an indented docstring snippet, plain attributes as their bare name; every
name filtered through `name_check`. -/
def _format_class_members (dd : DocstringDetail) (p : String → Bool)
    (c : PyClass) : List String :=
  (c.annotations.flatMap fun n => if p n then ["." ++ n] else [])
    ++ ((List.insertionSort clsMemberLe c.members).flatMap fun nv =>
      if !(p nv.1) then []
      else
        match nv.2 with
        | .func doc =>
          (nv.1 ++ "()" ++ _documented_status_opt doc)
            :: (_docstring_snippet doc dd).map (fun l => _INDENT ++ l)
        | .attr => [nv.1])

/-- `_format_class_summary`: a class without a discoverable module renders as
its bare name; a class declared outside the current module renders as its
dotted name; otherwise the class line with documented status followed by the
indented member lines. -/
def _format_class_summary (dd : DocstringDetail) (p : String → Bool)
    (qualname : String) (c : PyClass) : List String :=
  match c.modName with
  | none => [c.name]
  | some mn =>
    if !(pyStartsWith mn qualname) then [mn ++ "." ++ c.name]
    else
      (c.name ++ _documented_status_opt c.doc)
        :: (_format_class_members dd p c).map (fun l => _INDENT ++ l)

/-- The body of the class loop in `_format_module_members`: skip names the
check rejects, skip classes declared outside the module unless
`include_imported`, and otherwise format the class summary. -/
def _format_class_entry (dd : DocstringDetail) (ic : Bool) (p : String → Bool)
    (qualname : String) (c : PyClass) : List String :=
  if !(p c.name) then []
  else
    let module_name := c.modName.getD ""
    if !(pyStartsWith module_name qualname) && !ic then []
    else _format_class_summary dd p qualname c

/-- The body of the function loop in `_format_module_members`: skip names the
check rejects; functions declared in the module render with documented status
and docstring snippet, imported ones render as their dotted name when
`include_imported` and are dropped otherwise. -/
def _format_function_entry (dd : DocstringDetail) (ic : Bool) (p : String → Bool)
    (qualname : String) (f : PyFunction) : List String :=
  if !(p f.name) then []
  else
    let module_name := f.modName.getD ""
    if pyStartsWith module_name qualname then
      (f.name ++ _documented_status_opt f.doc) :: _docstring_snippet f.doc dd
    else if ic then [module_name ++ "." ++ f.name]
    else []

/-- The sorting key `by_class_location` of `_format_module_members`:
`(cls_module is None, not module_name.startswith(qualname), cls.__name__)`. -/
def by_class_location (qualname : String) (c : PyClass) : Bool × Bool × String :=
  (c.modName.isNone, !(pyStartsWith (c.modName.getD "") qualname), c.name)

/-- Lexicographic comparison of `(Bool, Bool, String)` keys. -/
def tripleLe (x y : Bool × Bool × String) : Bool :=
  match x.1, y.1 with
  | false, true => true
  | true, false => false
  | _, _ => pairLe x.2 y.2

/-- The presentation-time class order of `_format_module_members`. -/
def classLe (qualname : String) (a b : PyClass) : Prop :=
  tripleLe (by_class_location qualname a) (by_class_location qualname b) = true

instance (qualname : String) : DecidableRel (classLe qualname) := fun x y =>
  inferInstanceAs (Decidable (_ = true))

/-- The class and function loops of `_format_module_members` (everything
after the submodule loop). -/
def _format_nonmodule_members (dd : DocstringDetail) (ic : Bool)
    (p : String → Bool) (qualname : String) (cs : List PyClass)
    (fs : List PyFunction) : List String :=
  ((List.insertionSort (classLe qualname) cs).flatMap
      (_format_class_entry dd ic p qualname))
    ++ fs.flatMap (_format_function_entry dd ic p qualname)

mutual
/-- `format_module_summary`: the module's own line, its indented docstring
snippet, and the indented member lines. -/
def format_module_summary (dd : DocstringDetail) (ic : Bool)
    (p : String → Bool) : ModuleSummary → List String
  | m@(.mk _ _ _ _ subs _ _) =>
    (m.name ++ _all_status m ++ _documented_status m)
      :: (((_docstring_snippet (some m.doc) dd).map (fun l => _INDENT ++ l))
        ++ ((formatSubmodules dd ic p subs
            ++ _format_nonmodule_members dd ic p m.qualname m.classes m.functions).map
          (fun l => _INDENT ++ l)))

/-- The submodule loop of `_format_module_members`: submodules whose name the
check rejects are skipped entirely, the rest are formatted recursively. -/
def formatSubmodules (dd : DocstringDetail) (ic : Bool)
    (p : String → Bool) : List ModuleSummary → List String
  | [] => []
  | s :: rest =>
    (if p s.name then format_module_summary dd ic p s else [])
      ++ formatSubmodules dd ic p rest
end

/-- `_format_module_members`: submodule lines, then class lines, then
function lines. -/
def _format_module_members (dd : DocstringDetail) (ic : Bool)
    (p : String → Bool) (m : ModuleSummary) : List String :=
  formatSubmodules dd ic p m.submodules
    ++ _format_nonmodule_members dd ic p m.qualname m.classes m.functions

theorem format_module_summary_eq (dd : DocstringDetail) (ic : Bool)
    (p : String → Bool) (m : ModuleSummary) :
    format_module_summary dd ic p m =
      (m.name ++ _all_status m ++ _documented_status m)
        :: (((_docstring_snippet (some m.doc) dd).map (fun l => _INDENT ++ l))
          ++ ((_format_module_members dd ic p m).map (fun l => _INDENT ++ l))) := by
  match m with
  | .mk n q a d subs cs fs =>
    simp [format_module_summary, _format_module_members,
      ModuleSummary.submodules, ModuleSummary.classes, ModuleSummary.functions,
      ModuleSummary.qualname]

/-! ## Order facts for the sorting relations -/

theorem pairLe_total : ∀ x y : Bool × String, pairLe x y = true ∨ pairLe y x = true := by
  rintro ⟨b1, s1⟩ ⟨b2, s2⟩
  cases b1 <;> cases b2 <;> simp [pairLe, strLe] <;> exact lexLe_total ..

theorem pairLe_trans : ∀ x y z : Bool × String,
    pairLe x y = true → pairLe y z = true → pairLe x z = true := by
  rintro ⟨b1, s1⟩ ⟨b2, s2⟩ ⟨b3, s3⟩ h12 h23
  cases b1 <;> cases b2 <;> cases b3 <;>
    simp_all [pairLe, strLe] <;>
    exact lexLe_trans _ _ _ h12 h23

theorem tripleLe_total : ∀ x y : Bool × Bool × String,
    tripleLe x y = true ∨ tripleLe y x = true := by
  rintro ⟨b1, p1⟩ ⟨b2, p2⟩
  cases b1 <;> cases b2 <;> simp [tripleLe] <;> exact pairLe_total ..

theorem tripleLe_trans : ∀ x y z : Bool × Bool × String,
    tripleLe x y = true → tripleLe y z = true → tripleLe x z = true := by
  rintro ⟨b1, p1⟩ ⟨b2, p2⟩ ⟨b3, p3⟩ h12 h23
  cases b1 <;> cases b2 <;> cases b3 <;>
    simp_all [tripleLe] <;>
    exact pairLe_trans _ _ _ h12 h23

instance : IsTotal (String × PreVal) memberLe :=
  ⟨fun x y => pairLe_total (by_type_value x) (by_type_value y)⟩

instance : IsTrans (String × PreVal) memberLe :=
  ⟨fun _ _ _ hab hbc => pairLe_trans _ _ _ hab hbc⟩

instance : IsTotal (String × ClsMember) clsMemberLe :=
  ⟨fun x y => pairLe_total (by_type_member x) (by_type_member y)⟩

instance : IsTrans (String × ClsMember) clsMemberLe :=
  ⟨fun _ _ _ hab hbc => pairLe_trans _ _ _ hab hbc⟩

instance (qualname : String) : IsTotal PyClass (classLe qualname) :=
  ⟨fun x y =>
    tripleLe_total (by_class_location qualname x) (by_class_location qualname y)⟩

instance (qualname : String) : IsTrans PyClass (classLe qualname) :=
  ⟨fun _ _ _ hab hbc => tripleLe_trans _ _ _ hab hbc⟩

/-! ## Stable sorting lemmas -/

section SortLemmas

variable {α β : Type*} (r : α → α → Prop) [DecidableRel r]

theorem orderedInsert_eq_cons_of_forall (a : α) :
    ∀ l : List α, (∀ b ∈ l, r a b) → l.orderedInsert r a = a :: l
  | [], _ => rfl
  | b :: l, h => by
    rw [List.orderedInsert, if_pos (h b (List.mem_cons_self b l))]

/-- Filtering commutes with ordered insertion into a sorted list. -/
theorem filter_orderedInsert [IsTrans α r] (q : α → Bool) (a : α) :
    ∀ l : List α, l.Sorted r →
      (l.orderedInsert r a).filter q =
        if q a then (l.filter q).orderedInsert r a else l.filter q
  | [], _ => by
    by_cases hqa : q a = true <;> simp [List.filter_cons, hqa]
  | b :: l, hs => by
    rw [List.sorted_cons] at hs
    by_cases hab : r a b
    · rw [List.orderedInsert, if_pos hab, List.filter_cons]
      by_cases hqa : q a = true
      · rw [if_pos hqa, if_pos hqa]
        refine (orderedInsert_eq_cons_of_forall r a _ fun c hc => ?_).symm
        rcases List.mem_cons.mp (List.mem_of_mem_filter hc) with h | h
        · exact h ▸ hab
        · exact Trans.trans hab (hs.1 c h)
      · rw [if_neg hqa, if_neg hqa]
    · rw [List.orderedInsert, if_neg hab, List.filter_cons, List.filter_cons]
      by_cases hqb : q b = true
      · rw [if_pos hqb, if_pos hqb,
          filter_orderedInsert q a l hs.2]
        by_cases hqa : q a = true
        · rw [if_pos hqa, if_pos hqa, List.orderedInsert, if_neg hab]
        · rw [if_neg hqa, if_neg hqa]
      · rw [if_neg hqb, if_neg hqb, filter_orderedInsert q a l hs.2]

/-- Filtering commutes with the (stable) insertion sort. -/
theorem filter_insertionSort [IsTotal α r] [IsTrans α r] (q : α → Bool) :
    ∀ l : List α, (l.insertionSort r).filter q = (l.filter q).insertionSort r
  | [] => rfl
  | a :: l => by
    rw [List.insertionSort,
      filter_orderedInsert r q a _ (List.sorted_insertionSort r l), List.filter_cons]
    by_cases hqa : q a = true
    · rw [if_pos hqa, if_pos hqa, List.insertionSort, filter_insertionSort q l]
    · rw [if_neg hqa, if_neg hqa, filter_insertionSort q l]

/-- A `flatMap` ignores filtered-out elements whose image is empty. -/
theorem filter_flatMap_eq (q : α → Bool) (g : α → List β) :
    ∀ l : List α, (∀ x ∈ l, q x = false → g x = []) →
      (l.filter q).flatMap g = l.flatMap g
  | [], _ => rfl
  | a :: l, h => by
    rw [List.filter_cons]
    by_cases hqa : q a = true
    · rw [if_pos hqa, List.flatMap_cons, List.flatMap_cons,
        filter_flatMap_eq q g l fun x hx => h x (List.mem_cons_of_mem a hx)]
    · have hqa' : q a = false := by revert hqa; cases q a <;> simp
      rw [if_neg hqa, List.flatMap_cons, h a (List.mem_cons_self a l) hqa',
        List.nil_append,
        filter_flatMap_eq q g l fun x hx => h x (List.mem_cons_of_mem a hx)]

end SortLemmas

/-! ## Induction principle for the summary tree -/

theorem ModuleSummary.ind (P : ModuleSummary → Prop)
    (h : ∀ n q a d subs cs fs, (∀ s ∈ subs, P s) → P (.mk n q a d subs cs fs)) :
    ∀ m, P m
  | .mk n q a d subs cs fs =>
    h n q a d subs cs fs fun s hs =>
      have : sizeOf s < sizeOf (ModuleSummary.mk n q a d subs cs fs) := by
        have hs' := List.sizeOf_lt_of_mem hs
        simp only [ModuleSummary.mk.sizeOf_spec]
        omega
      ModuleSummary.ind P h s
termination_by m => sizeOf m

/-! ## Facts about `pySplitlines` -/

theorem splitCharAux_ne_nil (c : Char) : ∀ xs acc, splitCharAux c xs acc ≠ []
  | [], acc => by simp [splitCharAux]
  | x :: xs, acc => by
    rw [splitCharAux]
    by_cases h : x = c
    · simp [h]
    · rw [if_neg h]
      exact splitCharAux_ne_nil c xs (x :: acc)

theorem splitCharAux_singleton (c : Char) :
    ∀ xs acc ys, splitCharAux c xs acc = [ys] → ys = acc.reverse ++ xs
  | [], acc, ys, h => by
    simp only [splitCharAux, List.cons.injEq] at h
    rw [← h.1, List.append_nil]
  | x :: xs, acc, ys, h => by
    rw [splitCharAux] at h
    by_cases hx : x = c
    · rw [if_pos hx] at h
      simp only [List.cons.injEq] at h
      exact absurd h.2 (splitCharAux_ne_nil c xs [])
    · rw [if_neg hx] at h
      have h2 := splitCharAux_singleton c xs (x :: acc) ys h
      rw [h2, List.reverse_cons, List.append_assoc, List.singleton_append]

theorem pySplitlines_ne_nil (s : String) (h : s.data ≠ []) : pySplitlines s ≠ [] := by
  rw [pySplitlines, if_neg h]
  cases hsp : splitCharAux '\n' s.data [] with
  | nil => exact absurd hsp (splitCharAux_ne_nil _ _ _)
  | cons y ys =>
    cases ys with
    | nil =>
      have hy : y = s.data := by
        simpa using splitCharAux_singleton '\n' s.data [] y hsp
      have hmk : ¬ (String.mk y = "") := fun hmk =>
        h (hy ▸ congrArg String.data hmk)
      simp [pySplitChar, hsp, hmk]
    | cons z zs =>
      simp only [pySplitChar, hsp, List.map_cons]
      by_cases hlast :
          (String.mk y :: String.mk z :: zs.map String.mk).getLast? = some ""
      · rw [if_pos hlast]
        apply List.ne_nil_of_length_pos
        rw [List.length_dropLast]
        simp
      · rw [if_neg hlast]
        simp

/-! ## Claim C6: docstring detail levels -/

/-- C6: for every entity's documentation text, detail `NONE` emits no
docstring lines, and the `ONE_LINE` output is exactly the first-line prefix
of the `FULL` output (so `OneLine` is a prefix-consistent subsequence of
`Full` and the first emitted line of both is identical). -/
theorem C6_docstring_detail_ordering (doc : Option String) :
    _docstring_snippet doc .NONE = [] ∧
    _docstring_snippet doc .ONE_LINE = (_docstring_snippet doc .FULL).take 1 := by
  refine ⟨rfl, ?_⟩
  match doc with
  | none => rfl
  | some d =>
    by_cases hd : d = ""
    · simp [_docstring_snippet, hd]
    · have hdata : d.data ≠ [] := fun hdata => hd (String.ext hdata)
      have hne : pySplitlines d ≠ [] := pySplitlines_ne_nil d hdata
      simp only [_docstring_snippet, if_neg hd]
      cases hl : pySplitlines d with
      | nil => exact absurd hl hne
      | cons x xs => simp

/-! ## Claim C1: foreign classes render as a single leaf line -/

/-- C1: a class whose declaring module's name does not start with the
summarized module's qualified name produces no line at all when
`include_imported` is false, and exactly the single leaf line
`<declaring module name>.<class name>` — no member lines, no documentation
suffix, no docstring lines — when `include_imported` is true. -/
theorem C1_foreign_class_leaf (dd : DocstringDetail) (p : String → Bool)
    (qualname mn : String) (c : PyClass)
    (hmod : c.modName = some mn)
    (hforeign : pyStartsWith mn qualname = false) :
    _format_class_entry dd false p qualname c = [] ∧
    (p c.name = true →
      _format_class_entry dd true p qualname c = [mn ++ "." ++ c.name]) := by
  constructor
  · rw [_format_class_entry]
    by_cases hp : p c.name
    · simp only [hp, Bool.not_true, Bool.false_eq_true, if_false]
      rw [hmod]
      simp [hforeign]
    · simp [hp]
  · intro hp
    rw [_format_class_entry]
    simp only [hp, Bool.not_true, Bool.false_eq_true, if_false]
    rw [hmod]
    simp only [Option.getD_some, hforeign, Bool.not_false, Bool.not_true,
      Bool.and_false, Bool.false_eq_true, if_false]
    rw [_format_class_summary, hmod]
    simp [hforeign]

theorem C1_witness :
    _format_class_entry .NONE false (fun _ => true) "pkg"
        ⟨"Ext", some "othermod", none, [], []⟩ = [] ∧
    _format_class_entry .NONE true (fun _ => true) "pkg"
        ⟨"Ext", some "othermod", none, [], []⟩ = ["othermod.Ext"] := by
  have h := C1_foreign_class_leaf .NONE (fun _ => true) "pkg" "othermod"
    ⟨"Ext", some "othermod", none, [], []⟩ rfl (by decide)
  exact ⟨h.1, h.2 rfl⟩

/-! ## Claim C2: the spec's foreign-class rendering rule is reversed -/

/-- C2 counterexample: a class declared outside the module, with
`include_imported = false` and a name check that accepts everything, is
omitted entirely — the output is only the module's own line, and in
particular contains no dotted leaf line for the class, contrary to the
claimed rendering rule. -/
theorem C2_counterexample :
    format_module_summary .NONE false (fun _ => true)
        (.mk "pkg" "pkg" none "D" [] [⟨"Ext", some "othermod", some "", [], []⟩] []) =
      ["pkg"] ∧
    "othermod.Ext" ∉
      format_module_summary .NONE false (fun _ => true)
        (.mk "pkg" "pkg" none "D" [] [⟨"Ext", some "othermod", some "", [], []⟩] []) := by
  constructor
  · rfl
  · decide

/-- C2 amended: for a class declared outside the current module's namespace
the formatter renders the dotted name as a single leaf line exactly when
`include_imported` is true and the name check accepts the bare class name;
when `include_imported` is false (or the name check rejects the name) the
class is omitted entirely, and full member expansion never happens. -/
theorem C2_amended (dd : DocstringDetail) (ic : Bool) (p : String → Bool)
    (qualname mn : String) (c : PyClass)
    (hmod : c.modName = some mn)
    (hforeign : pyStartsWith mn qualname = false) :
    _format_class_entry dd ic p qualname c =
      if ic && p c.name then [mn ++ "." ++ c.name] else [] := by
  cases ic <;> by_cases hp : p c.name <;>
    simp [_format_class_entry, _format_class_summary, hmod, hforeign, hp]

theorem C2_amended_witness :
    _format_class_entry .NONE true (fun _ => true) "pkg"
        ⟨"Ext", some "othermod", some "", [], []⟩ = ["othermod.Ext"] := by
  have h := C2_amended .NONE true (fun _ => true) "pkg" "othermod"
    ⟨"Ext", some "othermod", some "", [], []⟩ rfl (by decide)
  simpa using h

/-! ## Claim C10: the exports marker ignores the export policy -/

/-- C10: the builder records the declared export list in the summary under
both policies, so the exports marker on the module's rendered line depends
only on whether an export list was declared, never on `ignore_all`; the
module's own line is always the head of the formatted output and carries the
marker exactly when a list was declared. -/
theorem C10_exports_marker_policy_independent (ia : Bool) (name pkg : String)
    (all_ : Option (List String)) (doc : Option String)
    (attrs : List (String × PyValue)) :
    (parse_module ia (.mk name pkg all_ doc attrs)).all = all_ ∧
    _all_status (parse_module ia (.mk name pkg all_ doc attrs)) =
      (if all_.isSome then " (__all__)" else "") ∧
    ∀ (dd : DocstringDetail) (ic : Bool) (p : String → Bool),
      (format_module_summary dd ic p
          (parse_module ia (.mk name pkg all_ doc attrs))).head? =
        some ((parse_module ia (.mk name pkg all_ doc attrs)).name ++
          (if all_.isSome then " (__all__)" else "") ++
          _documented_status (parse_module ia (.mk name pkg all_ doc attrs))) := by
  have h1 : (parse_module ia (.mk name pkg all_ doc attrs)).all = all_ := rfl
  have h2 : _all_status (parse_module ia (.mk name pkg all_ doc attrs)) =
      (if all_.isSome then " (__all__)" else "") := by
    rw [_all_status, h1]
    cases all_ <;> simp
  refine ⟨h1, h2, ?_⟩
  intro dd ic p
  rw [format_module_summary_eq, List.head?_cons, h2]

/-! ## Claim C4: the submodule classification rule -/

theorem classifyMembers_eq (qn : String) : ∀ l : List (String × PreVal),
    classifyMembers qn l =
      (l.filterMap fun nv =>
        match nv.2 with
        | PreVal.mod pk s => if pyStartsWith pk qn then some s else none
        | _ => none,
       l.filterMap fun nv =>
        match nv.2 with
        | PreVal.cls c => if pyStartsWith "" qn then none else some c
        | _ => none,
       l.filterMap fun nv =>
        match nv.2 with
        | PreVal.func f => if pyStartsWith "" qn then none else some f
        | _ => none)
  | [] => rfl
  | (n, v) :: l => by
    have ih := classifyMembers_eq qn l
    cases v with
    | mod pk s =>
      by_cases h : pyStartsWith pk qn = true
      · simp [classifyMembers, pkgOfPre, h, ih]
      · have h' : pyStartsWith pk qn = false := by
          revert h; cases pyStartsWith pk qn <;> simp
        simp [classifyMembers, pkgOfPre, h', ih]
    | cls c =>
      by_cases h : pyStartsWith "" qn = true
      · simp [classifyMembers, pkgOfPre, h, ih]
      · have h' : pyStartsWith "" qn = false := by
          revert h; cases pyStartsWith "" qn <;> simp
        simp [classifyMembers, pkgOfPre, h', ih]
    | func f =>
      by_cases h : pyStartsWith "" qn = true
      · simp [classifyMembers, pkgOfPre, h, ih]
      · have h' : pyStartsWith "" qn = false := by
          revert h; cases pyStartsWith "" qn <;> simp
        simp [classifyMembers, pkgOfPre, h', ih]
    | other =>
      by_cases h : pyStartsWith "" qn = true
      · simp [classifyMembers, pkgOfPre, h, ih]
      · have h' : pyStartsWith "" qn = false := by
          revert h; cases pyStartsWith "" qn <;> simp
        simp [classifyMembers, pkgOfPre, h', ih]

/-- C4 counterexample: in module `pkg`, a value that is a module with
`__package__ = "pkg.sub"` is classified as a submodule by the code (the
check is `value.__package__.startswith(module.__name__)`), although the
claimed condition — the value's package name is a prefix of the current
module's fully-qualified name — is false there. -/
theorem C4_counterexample :
    ((parse_module false (.mk "pkg" "" none (some "D")
        [("deep", .mod (.mk "pkg.sub.deep" "pkg.sub" none none []))])).submodules.map
      ModuleSummary.qualname = ["pkg.sub.deep"]) ∧
    pyStartsWith "pkg" "pkg.sub" = false := by
  constructor
  · rfl
  · decide

/-- C4 amended: a member value is classified as a submodule (and recursed
into with the same export policy) exactly when it is a module whose declared
`__package__` has the current module's fully-qualified name as a prefix —
the reverse prefix direction of the claim; such values never also land in
`classes` or `functions`, which collect exactly the class and function
values that fail that package test. -/
theorem C4_amended (ia : Bool) (name pkg : String) (all_ : Option (List String))
    (doc : Option String) (attrs : List (String × PyValue)) :
    (parse_module ia (.mk name pkg all_ doc attrs)).submodules =
      (selectedMembers ia all_ (parseAttrs ia attrs)).filterMap (fun nv =>
        match nv.2 with
        | PreVal.mod pk s => if pyStartsWith pk name then some s else none
        | _ => none) ∧
    (parse_module ia (.mk name pkg all_ doc attrs)).classes =
      (selectedMembers ia all_ (parseAttrs ia attrs)).filterMap (fun nv =>
        match nv.2 with
        | PreVal.cls c => if pyStartsWith "" name then none else some c
        | _ => none) ∧
    (parse_module ia (.mk name pkg all_ doc attrs)).functions =
      (selectedMembers ia all_ (parseAttrs ia attrs)).filterMap (fun nv =>
        match nv.2 with
        | PreVal.func f => if pyStartsWith "" name then none else some f
        | _ => none) ∧
    ∀ m' : PyModule, parseVal ia (PyValue.mod m') =
      PreVal.mod m'.package (parse_module ia m') := by
  refine ⟨?_, ?_, ?_, ?_⟩
  · show (classifyMembers name (selectedMembers ia all_ (parseAttrs ia attrs))).1 = _
    rw [classifyMembers_eq]
  · show (classifyMembers name (selectedMembers ia all_ (parseAttrs ia attrs))).2.1 = _
    rw [classifyMembers_eq]
  · show (classifyMembers name (selectedMembers ia all_ (parseAttrs ia attrs))).2.2 = _
    rw [classifyMembers_eq]
  · intro m'
    cases m'
    rfl

/-! ## Claim C3: the export policy restricts the classified member names -/

/-- C3: under the `Respect` policy (`ignore_all = false`) with a declared
export list, the names the builder goes on to classify are exactly the
module's own attribute names intersected with the export list; under the
`Ignore` policy (`ignore_all = true`) every own attribute name is considered
regardless of any declared list. -/
theorem C3_export_policy (pre : List (String × PreVal)) :
    (∀ (al : List String) (n : String),
      n ∈ (selectedMembers false (some al) pre).map Prod.fst ↔
        n ∈ pre.map Prod.fst ∧ n ∈ al) ∧
    ∀ (all_ : Option (List String)) (n : String),
      n ∈ (selectedMembers true all_ pre).map Prod.fst ↔ n ∈ pre.map Prod.fst := by
  constructor
  · intro al n
    have hperm : List.Perm (selectedMembers false (some al) pre)
        (pre.filter fun nv => al.contains nv.1) :=
      List.perm_insertionSort memberLe _
    rw [(hperm.map Prod.fst).mem_iff]
    simp only [List.mem_map, List.mem_filter]
    constructor
    · rintro ⟨x, ⟨hx, hc⟩, hn⟩
      refine ⟨⟨x, hx, hn⟩, ?_⟩
      rw [← hn]
      exact List.elem_iff.mp hc
    · rintro ⟨⟨x, hx, hn⟩, hal⟩
      refine ⟨x, ⟨hx, ?_⟩, hn⟩
      exact List.elem_iff.mpr (hn ▸ hal)
  · intro all_ n
    have hperm : List.Perm (selectedMembers true all_ pre) pre :=
      List.perm_insertionSort memberLe _
    rw [(hperm.map Prod.fst).mem_iff]

/-! ## Claim C9: duplicate members under aliasing -/

theorem parseAttrs_map_fst (ia : Bool) :
    ∀ attrs : List (String × PyValue),
      (parseAttrs ia attrs).map Prod.fst = attrs.map Prod.fst
  | [] => rfl
  | (n, v) :: attrs => by
    rw [parseAttrs, List.map_cons, List.map_cons, parseAttrs_map_fst ia attrs]

theorem mem_parseAttrs (ia : Bool) :
    ∀ (attrs : List (String × PyValue)) (n : String) (pv : PreVal),
      (n, pv) ∈ parseAttrs ia attrs →
        ∃ v, (n, v) ∈ attrs ∧ parseVal ia v = pv
  | [], _, _, h => absurd h (List.not_mem_nil _)
  | (n0, v0) :: attrs, n, pv, h => by
    rw [parseAttrs, List.mem_cons] at h
    rcases h with h | h
    · rcases Prod.mk.injEq .. ▸ h with ⟨h1, h2⟩
      exact ⟨v0, by rw [h1]; exact List.mem_cons_self _ _, h2.symm⟩
    · rcases mem_parseAttrs ia attrs n pv h with ⟨v, hv, hpv⟩
      exact ⟨v, List.mem_cons_of_mem _ hv, hpv⟩

theorem mem_get_module_members {x : String × PreVal}
    {attrs : List (String × PreVal)} {o : Option (List String)}
    (h : x ∈ _get_module_members attrs o) : x ∈ attrs := by
  cases o with
  | none => exact (List.mem_insertionSort memberLe).mp h
  | some al =>
    exact List.mem_of_mem_filter ((List.mem_insertionSort memberLe).mp h)

theorem mem_selectedMembers {x : String × PreVal} {ia : Bool}
    {all_ : Option (List String)} {pre : List (String × PreVal)}
    (h : x ∈ selectedMembers ia all_ pre) : x ∈ pre :=
  mem_get_module_members h

theorem selectedMembers_map_fst_nodup {ia : Bool}
    {all_ : Option (List String)} {pre : List (String × PreVal)}
    (h : (pre.map Prod.fst).Nodup) :
    ((selectedMembers ia all_ pre).map Prod.fst).Nodup := by
  rw [selectedMembers]
  cases hif : (if ia then none else all_) with
  | none =>
    rw [_get_module_members]
    exact ((List.perm_insertionSort memberLe pre).map Prod.fst).nodup_iff.mpr h
  | some al =>
    rw [_get_module_members]
    refine ((List.perm_insertionSort memberLe _).map Prod.fst).nodup_iff.mpr ?_
    exact ((List.filter_sublist pre).map Prod.fst).nodup h

theorem nodup_filterMap_of_inj {α β γ : Type*} (g : α × β → Option γ) :
    ∀ l : List (α × β), (l.map Prod.fst).Nodup →
      (∀ x y c, x ∈ l → y ∈ l → g x = some c → g y = some c → x.1 = y.1) →
      (l.filterMap g).Nodup
  | [], _, _ => List.nodup_nil
  | a :: l, hn, hinj => by
    rw [List.map_cons, List.nodup_cons] at hn
    rw [List.filterMap_cons]
    have ihyp : ∀ x y c, x ∈ l → y ∈ l → g x = some c → g y = some c → x.1 = y.1 :=
      fun x y c hx hy => hinj x y c (List.mem_cons_of_mem a hx) (List.mem_cons_of_mem a hy)
    cases hga : g a with
    | none => exact nodup_filterMap_of_inj g l hn.2 ihyp
    | some c =>
      rw [List.nodup_cons]
      refine ⟨fun hc => ?_, nodup_filterMap_of_inj g l hn.2 ihyp⟩
      rcases List.mem_filterMap.mp hc with ⟨y, hy, hgy⟩
      have heq := hinj a y c (List.mem_cons_self a l) (List.mem_cons_of_mem a hy) hga hgy
      exact hn.1 (heq ▸ List.mem_map_of_mem Prod.fst hy)

/-- C9 counterexample: a class object bound under two names (`Bar = Foo`)
appears twice in the `classes` list, so the list does not contain each
distinct member at most once. -/
theorem C9_counterexample :
    (parse_module false (.mk "pkg" "" none (some "D")
        [("Bar", .cls ⟨"Foo", some "pkg", some "d", [], []⟩),
         ("Foo", .cls ⟨"Foo", some "pkg", some "d", [], []⟩)])).classes =
      [⟨"Foo", some "pkg", some "d", [], []⟩, ⟨"Foo", some "pkg", some "d", [], []⟩] ∧
    ¬ (parse_module false (.mk "pkg" "" none (some "D")
        [("Bar", .cls ⟨"Foo", some "pkg", some "d", [], []⟩),
         ("Foo", .cls ⟨"Foo", some "pkg", some "d", [], []⟩)])).classes.Nodup := by
  constructor
  · rfl
  · decide

/-- The aliasing-freedom condition on an attribute mapping: no two entries
bind the same class object or the same function object. -/
def distinctValsB (a b : String × PyValue) : Bool :=
  match a.2, b.2 with
  | PyValue.cls c₁, PyValue.cls c₂ => decide (c₁ ≠ c₂)
  | PyValue.func f₁, PyValue.func f₂ => decide (f₁ ≠ f₂)
  | _, _ => true

theorem distinctValsB_symm : Symmetric fun a b : String × PyValue =>
    distinctValsB a b = true := by
  rintro ⟨n₁, v₁⟩ ⟨n₂, v₂⟩ h
  cases v₁ <;> cases v₂ <;> simp_all [distinctValsB] <;> exact Ne.symm h

/-- C9 amended: each surviving attribute name contributes at most one entry,
so when attribute names are distinct and no class or function object is
bound under two different names, the `classes` and `functions` lists are
duplicate-free; a member aliased under several names appears once per alias. -/
theorem C9_amended (ia : Bool) (name pkg : String) (all_ : Option (List String))
    (doc : Option String) (attrs : List (String × PyValue))
    (hnames : (attrs.map Prod.fst).Nodup)
    (halias : attrs.Pairwise fun a b => distinctValsB a b = true) :
    (parse_module ia (.mk name pkg all_ doc attrs)).classes.Nodup ∧
    (parse_module ia (.mk name pkg all_ doc attrs)).functions.Nodup := by
  have hpren : ((parseAttrs ia attrs).map Prod.fst).Nodup := by
    rw [parseAttrs_map_fst]; exact hnames
  have hmemn : ((selectedMembers ia all_ (parseAttrs ia attrs)).map Prod.fst).Nodup :=
    selectedMembers_map_fst_nodup hpren
  have hpair := halias.forall distinctValsB_symm
  constructor
  · show (classifyMembers name (selectedMembers ia all_ (parseAttrs ia attrs))).2.1.Nodup
    rw [classifyMembers_eq]
    refine nodup_filterMap_of_inj _ _ hmemn ?_
    rintro ⟨nx, vx⟩ ⟨ny, vy⟩ c hx hy hgx hgy
    cases vx <;> try exact Option.noConfusion hgx
    case cls cx =>
      cases vy <;> try exact Option.noConfusion hgy
      case cls cy =>
        by_cases hq : pyStartsWith "" name = true
        · rw [show (match ((nx, PreVal.cls cx)).2 with
              | PreVal.cls c => if pyStartsWith "" name = true then none else some c
              | _ => none) =
              (if pyStartsWith "" name = true then none else some cx) from rfl,
            if_pos hq] at hgx
          exact Option.noConfusion hgx
        · rw [show (match ((nx, PreVal.cls cx)).2 with
              | PreVal.cls c => if pyStartsWith "" name = true then none else some c
              | _ => none) =
              (if pyStartsWith "" name = true then none else some cx) from rfl,
            if_neg hq] at hgx
          rw [show (match ((ny, PreVal.cls cy)).2 with
              | PreVal.cls c => if pyStartsWith "" name = true then none else some c
              | _ => none) =
              (if pyStartsWith "" name = true then none else some cy) from rfl,
            if_neg hq] at hgy
          have hcx : cx = c := by injection hgx
          have hcy : cy = c := by injection hgy
          rcases mem_parseAttrs ia attrs nx _ (mem_selectedMembers hx) with ⟨v₁, hv₁, hp₁⟩
          rcases mem_parseAttrs ia attrs ny _ (mem_selectedMembers hy) with ⟨v₂, hv₂, hp₂⟩
          have hv₁' : v₁ = PyValue.cls cx := by
            cases v₁ <;> simp [parseVal] at hp₁ <;> simp [hp₁]
          have hv₂' : v₂ = PyValue.cls cy := by
            cases v₂ <;> simp [parseVal] at hp₂ <;> simp [hp₂]
          rw [hv₁'] at hv₁
          rw [hv₂'] at hv₂
          show nx = ny
          by_contra hne
          have hpairs : (nx, PyValue.cls cx) ≠ (ny, PyValue.cls cy) := by
            simp only [ne_eq, Prod.mk.injEq, not_and]
            intro h _
            exact hne h
          have hd := hpair hv₁ hv₂ hpairs
          rw [hcx, hcy] at hd
          simp [distinctValsB] at hd
  · show (classifyMembers name (selectedMembers ia all_ (parseAttrs ia attrs))).2.2.Nodup
    rw [classifyMembers_eq]
    refine nodup_filterMap_of_inj _ _ hmemn ?_
    rintro ⟨nx, vx⟩ ⟨ny, vy⟩ c hx hy hgx hgy
    cases vx <;> try exact Option.noConfusion hgx
    case func fx =>
      cases vy <;> try exact Option.noConfusion hgy
      case func fy =>
        by_cases hq : pyStartsWith "" name = true
        · rw [show (match ((nx, PreVal.func fx)).2 with
              | PreVal.func f => if pyStartsWith "" name = true then none else some f
              | _ => none) =
              (if pyStartsWith "" name = true then none else some fx) from rfl,
            if_pos hq] at hgx
          exact Option.noConfusion hgx
        · rw [show (match ((nx, PreVal.func fx)).2 with
              | PreVal.func f => if pyStartsWith "" name = true then none else some f
              | _ => none) =
              (if pyStartsWith "" name = true then none else some fx) from rfl,
            if_neg hq] at hgx
          rw [show (match ((ny, PreVal.func fy)).2 with
              | PreVal.func f => if pyStartsWith "" name = true then none else some f
              | _ => none) =
              (if pyStartsWith "" name = true then none else some fy) from rfl,
            if_neg hq] at hgy
          have hcx : fx = c := by injection hgx
          have hcy : fy = c := by injection hgy
          rcases mem_parseAttrs ia attrs nx _ (mem_selectedMembers hx) with ⟨v₁, hv₁, hp₁⟩
          rcases mem_parseAttrs ia attrs ny _ (mem_selectedMembers hy) with ⟨v₂, hv₂, hp₂⟩
          have hv₁' : v₁ = PyValue.func fx := by
            cases v₁ <;> simp [parseVal] at hp₁ <;> simp [hp₁]
          have hv₂' : v₂ = PyValue.func fy := by
            cases v₂ <;> simp [parseVal] at hp₂ <;> simp [hp₂]
          rw [hv₁'] at hv₁
          rw [hv₂'] at hv₂
          show nx = ny
          by_contra hne
          have hpairs : (nx, PyValue.func fx) ≠ (ny, PyValue.func fy) := by
            simp only [ne_eq, Prod.mk.injEq, not_and]
            intro h _
            exact hne h
          have hd := hpair hv₁ hv₂ hpairs
          rw [hcx, hcy] at hd
          simp [distinctValsB] at hd

theorem C9_amended_witness :
    (parse_module false (.mk "pkg" "" none (some "D")
        [("A", .cls ⟨"A", some "pkg", some "d", [], []⟩),
         ("B", .cls ⟨"B", some "pkg", none, [], []⟩),
         ("f", .func ⟨"f", some "pkg", none⟩)])).classes.Nodup ∧
    (parse_module false (.mk "pkg" "" none (some "D")
        [("A", .cls ⟨"A", some "pkg", some "d", [], []⟩),
         ("B", .cls ⟨"B", some "pkg", none, [], []⟩),
         ("f", .func ⟨"f", some "pkg", none⟩)])).functions.Nodup :=
  C9_amended false "pkg" "" none (some "D")
    [("A", .cls ⟨"A", some "pkg", some "d", [], []⟩),
     ("B", .cls ⟨"B", some "pkg", none, [], []⟩),
     ("f", .func ⟨"f", some "pkg", none⟩)]
    (by decide) (by decide)

/-! ## Claim C7: presentation-time class ordering -/

/-- The three presentation groups of the claim: classes declared natively in
the current module (declaring module name matching the module's qualified
path by prefix) first, then foreign classes with a discoverable declaring
module, then classes with no discoverable declaring module. -/
def classGroupRank (qualname : String) (c : PyClass) : Nat :=
  match c.modName with
  | none => 2
  | some mn => if pyStartsWith mn qualname then 0 else 1

theorem classLe_imp_rank (qualname : String) (a b : PyClass)
    (h : classLe qualname a b) :
    classGroupRank qualname a < classGroupRank qualname b ∨
      (classGroupRank qualname a = classGroupRank qualname b ∧
        strLe a.name b.name = true) := by
  unfold classLe by_class_location at h
  unfold classGroupRank
  rcases hma : a.modName with _ | mna <;> rcases hmb : b.modName with _ | mnb <;>
    rw [hma, hmb] at h <;>
    simp only [Option.getD_none, Option.getD_some, Option.isNone_none,
      Option.isNone_some] at h
  · -- both without a module: same middle key, so names compare
    right
    refine ⟨rfl, ?_⟩
    rw [tripleLe] at h
    cases hsw : pyStartsWith "" qualname <;> rw [hsw] at h <;>
      simpa [pairLe] using h
  · -- a without module, b with module: the sort never places a before b
    rw [tripleLe] at h
    exact absurd h (by simp)
  · -- a with module, b without: a's group comes first
    left
    by_cases hx : pyStartsWith mna qualname = true <;> simp [hx]
  · -- both with modules: compare the native/foreign flags then names
    rw [tripleLe] at h
    cases hsa : pyStartsWith mna qualname <;> cases hsb : pyStartsWith mnb qualname <;>
      rw [hsa, hsb] at h <;> simp only [Bool.not_true, Bool.not_false] at h
    · right
      refine ⟨by simp [hsa, hsb], ?_⟩
      simpa [pairLe] using h
    · rw [pairLe] at h
      exact absurd h (by simp)
    · left
      simp [hsa, hsb]
    · right
      refine ⟨by simp [hsa, hsb], ?_⟩
      simpa [pairLe] using h

/-- C7: the formatter renders a module's classes in the order produced by
`List.insertionSort (classLe qualname)`: a permutation of the built list that
is sorted with natively-declared classes first, then foreign classes with a
discoverable declaring module, then classes with no discoverable declaring
module, lexicographically by class name inside each group. -/
theorem C7_class_presentation_order (qualname : String) (cs : List PyClass) :
    List.Perm (List.insertionSort (classLe qualname) cs) cs ∧
    (List.insertionSort (classLe qualname) cs).Pairwise (fun a b =>
      classGroupRank qualname a < classGroupRank qualname b ∨
        (classGroupRank qualname a = classGroupRank qualname b ∧
          strLe a.name b.name = true)) := by
  refine ⟨List.perm_insertionSort _ _, ?_⟩
  have hs := List.sorted_insertionSort (classLe qualname) cs
  exact List.Pairwise.imp (fun {a b} h => classLe_imp_rank qualname a b h) hs

/-! ## Claim C5: rejected names contribute nothing to the output -/

theorem flatMap_congr_mem {α β : Type*} {l : List α} {f g : α → List β}
    (h : ∀ a ∈ l, f a = g a) : l.flatMap f = l.flatMap g := by
  induction l with
  | nil => rfl
  | cons a l ih =>
    rw [List.flatMap_cons, List.flatMap_cons, h a (List.mem_cons_self a l),
      ih fun a ha => h a (List.mem_cons_of_mem _ ha)]

/-- Remove from a class every annotation and member whose name the check
rejects. -/
def filterClass (p : String → Bool) (c : PyClass) : PyClass :=
  ⟨c.name, c.modName, c.doc, c.annotations.filter p,
    c.members.filter fun nv => p nv.1⟩

mutual
/-- Remove from the summary tree every submodule, class, function, and
class member whose name the check rejects. -/
def filterSummary (p : String → Bool) : ModuleSummary → ModuleSummary
  | .mk n q a d subs cs fs =>
    .mk n q a d (filterSubs p subs)
      ((cs.filter fun c => p c.name).map (filterClass p))
      (fs.filter fun f => p f.name)

def filterSubs (p : String → Bool) : List ModuleSummary → List ModuleSummary
  | [] => []
  | s :: rest =>
    (if p s.name then [filterSummary p s] else []) ++ filterSubs p rest
end

theorem format_class_members_filterClass (dd : DocstringDetail)
    (p : String → Bool) (c : PyClass) :
    _format_class_members dd p (filterClass p c) = _format_class_members dd p c := by
  rw [_format_class_members, _format_class_members]
  congr 1
  · show (c.annotations.filter p).flatMap _ = _
    exact filter_flatMap_eq p _ c.annotations fun n _ hn => by simp [hn]
  · show (List.insertionSort clsMemberLe (c.members.filter fun nv => p nv.1)).flatMap _ = _
    rw [← filter_insertionSort clsMemberLe (fun nv => p nv.1) c.members]
    exact filter_flatMap_eq _ _ _ fun nv _ hn => by simp [hn]

theorem format_class_summary_filterClass (dd : DocstringDetail)
    (p : String → Bool) (qn : String) (c : PyClass) :
    _format_class_summary dd p qn (filterClass p c) =
      _format_class_summary dd p qn c := by
  cases hm : c.modName with
  | none =>
    have hm' : (filterClass p c).modName = none := hm
    rw [_format_class_summary, _format_class_summary, hm, hm']
    rfl
  | some mn =>
    have hm' : (filterClass p c).modName = some mn := hm
    rw [_format_class_summary, _format_class_summary, hm, hm']
    by_cases hsw : pyStartsWith mn qn = true
    · simp only [hsw, Bool.not_true, Bool.false_eq_true, if_false,
        show (filterClass p c).name = c.name from rfl,
        show (filterClass p c).doc = c.doc from rfl,
        format_class_members_filterClass]
    · have hsw' : pyStartsWith mn qn = false := by
        revert hsw; cases pyStartsWith mn qn <;> simp
      simp only [hsw', Bool.not_false, if_true,
        show (filterClass p c).name = c.name from rfl]

theorem format_class_entry_filterClass (dd : DocstringDetail) (ic : Bool)
    (p : String → Bool) (qn : String) (c : PyClass) :
    _format_class_entry dd ic p qn (filterClass p c) =
      _format_class_entry dd ic p qn c := by
  rw [_format_class_entry, _format_class_entry,
    show (filterClass p c).name = c.name from rfl,
    show (filterClass p c).modName = c.modName from rfl,
    format_class_summary_filterClass]

theorem nonmodule_members_filter (dd : DocstringDetail) (ic : Bool)
    (p : String → Bool) (qn : String) (cs : List PyClass) (fs : List PyFunction) :
    _format_nonmodule_members dd ic p qn
        ((cs.filter fun c => p c.name).map (filterClass p))
        (fs.filter fun f => p f.name) =
      _format_nonmodule_members dd ic p qn cs fs := by
  rw [_format_nonmodule_members, _format_nonmodule_members]
  congr 1
  · have hmap : List.insertionSort (classLe qn)
        ((cs.filter fun c => p c.name).map (filterClass p)) =
        (List.insertionSort (classLe qn) (cs.filter fun c => p c.name)).map
          (filterClass p) :=
      (List.map_insertionSort (classLe qn) (classLe qn) (filterClass p) _
        fun a _ b _ => Iff.rfl).symm
    rw [hmap, ← filter_insertionSort (classLe qn) (fun c => p c.name) cs,
      List.flatMap_map]
    rw [flatMap_congr_mem fun c _ =>
      format_class_entry_filterClass dd ic p qn c]
    exact filter_flatMap_eq _ _ _ fun c _ hn => by simp [_format_class_entry, hn]
  · exact filter_flatMap_eq _ _ fs fun f _ hn => by
      simp [_format_function_entry, hn]

theorem formatSubmodules_filterSubs (dd : DocstringDetail) (ic : Bool)
    (p : String → Bool) :
    ∀ subs : List ModuleSummary,
      (∀ s ∈ subs, format_module_summary dd ic p (filterSummary p s) =
        format_module_summary dd ic p s) →
      formatSubmodules dd ic p (filterSubs p subs) = formatSubmodules dd ic p subs
  | [], _ => rfl
  | s :: rest, h => by
    have hrest := formatSubmodules_filterSubs dd ic p rest
      fun s' hs' => h s' (List.mem_cons_of_mem s hs')
    have hname : (filterSummary p s).name = s.name := by cases s ; rfl
    by_cases hp : p s.name = true
    · rw [filterSubs, if_pos hp, List.singleton_append]
      simp only [formatSubmodules]
      rw [hname, if_pos hp, if_pos hp, h s (List.mem_cons_self s rest), hrest]
    · rw [filterSubs, if_neg hp, List.nil_append, hrest]
      simp only [formatSubmodules]
      rw [if_neg hp, List.nil_append]

/-- C5: filtering is monotone — a name rejected by the check contributes no
line and nothing beneath it: formatting a summary equals formatting the tree
with every rejected submodule, class, function and class member removed.
The check is never applied to the root module: its line is always the head
of the output, whatever the check. -/
theorem C5_filter_monotonic (dd : DocstringDetail) (ic : Bool)
    (p : String → Bool) (m : ModuleSummary) :
    format_module_summary dd ic p (filterSummary p m) =
      format_module_summary dd ic p m ∧
    (format_module_summary dd ic p m).head? =
      some (m.name ++ _all_status m ++ _documented_status m) := by
  constructor
  · induction m using ModuleSummary.ind with
    | h n q a d subs cs fs ih =>
      show format_module_summary dd ic p
          (.mk n q a d (filterSubs p subs)
            ((cs.filter fun c => p c.name).map (filterClass p))
            (fs.filter fun f => p f.name)) =
        format_module_summary dd ic p (.mk n q a d subs cs fs)
      rw [format_module_summary_eq, format_module_summary_eq]
      simp only [ModuleSummary.name, ModuleSummary.qualname, ModuleSummary.all,
        ModuleSummary.doc, ModuleSummary.submodules, ModuleSummary.classes,
        ModuleSummary.functions, _all_status, _documented_status, _is_documented,
        _format_module_members]
      rw [formatSubmodules_filterSubs dd ic p subs ih,
        nonmodule_members_filter]
  · rw [format_module_summary_eq]
    rfl

/-! ## Claim C8: placement of the undocumented suffix

The output lines carrying the undocumented marker are counted through the
predicate `undocMarked` (the line ends in `"(undocumented)"`).  Whenever no
name and no docstring line of the tree itself ends in that string, a line is
marked exactly when the formatter appended the suffix to it. -/

/-- A line carrying the undocumented marker (it ends in `"(undocumented)"`). -/
def undocMarked (l : String) : Bool :=
  "(undocumented)".data.isSuffixOf l.data

/-- Number of lines carrying the undocumented marker. -/
def markedLineCount (lines : List String) : Nat :=
  (lines.filter undocMarked).length

/-- The docstring's rendered lines are free of the marker. -/
def cleanDoc (doc : Option String) : Bool :=
  (pySplitlines (doc.getD "")).all fun l => !(undocMarked l)

/-- All names and docstrings reachable from a class are marker-free. -/
def cleanClass (c : PyClass) : Bool :=
  !(undocMarked c.name) &&
    c.annotations.all (fun n => !(undocMarked n)) &&
    c.members.all fun nv =>
      !(undocMarked nv.1) &&
        (match nv.2 with
         | ClsMember.func doc => cleanDoc doc
         | ClsMember.attr => true)

mutual
/-- All names and docstrings in the tree are marker-free. -/
def cleanTree : ModuleSummary → Bool
  | .mk n _ _ d subs cs fs =>
    !(undocMarked n) && cleanDoc (some d) && cleanSubs subs &&
      cs.all cleanClass &&
      fs.all fun f => !(undocMarked f.name) && cleanDoc f.doc

def cleanSubs : List ModuleSummary → Bool
  | [] => true
  | s :: rest => cleanTree s && cleanSubs rest
end

/-- Expected marker count contributed by one class member line. -/
def undocCountMember (p : String → Bool) (nv : String × ClsMember) : Nat :=
  if p nv.1 then
    match nv.2 with
    | ClsMember.func doc => if _is_documented_opt doc then 0 else 1
    | ClsMember.attr => 0
  else 0

/-- Expected marker count contributed by one class: only classes rendered in
full (name accepted, declared natively) contribute — one for the class line
when its docstring is empty or absent, plus one per rendered undocumented
method; abbreviated leaf renderings contribute nothing. -/
def undocCountClass (p : String → Bool) (qn : String) (c : PyClass) : Nat :=
  if p c.name then
    match c.modName with
    | none => 0
    | some mn =>
      if pyStartsWith mn qn then
        (if _is_documented_opt c.doc then 0 else 1) +
          (c.members.map (undocCountMember p)).sum
      else 0
  else 0

/-- Expected marker count contributed by one function: only natively
declared, name-accepted functions contribute, one when undocumented;
imported functions (rendered abbreviated or omitted) contribute nothing. -/
def undocCountFunction (p : String → Bool) (qn : String) (f : PyFunction) : Nat :=
  if p f.name && pyStartsWith (f.modName.getD "") qn then
    if _is_documented_opt f.doc then 0 else 1
  else 0

mutual
/-- Expected marker count of a rendered tree: one for each rendered module
line with empty docstring, plus the class and function contributions. -/
def undocCount (p : String → Bool) : ModuleSummary → Nat
  | .mk _ q _ d subs cs fs =>
    (if d != "" then 0 else 1) + undocCountSubs p subs +
      (cs.map (undocCountClass p q)).sum +
      (fs.map (undocCountFunction p q)).sum

def undocCountSubs (p : String → Bool) : List ModuleSummary → Nat
  | [] => 0
  | s :: rest => (if p s.name then undocCount p s else 0) + undocCountSubs p rest
end

/-- C8 counterexample: an undocumented function imported from another module
is rendered (with `include_imported = true`) as a dotted leaf line carrying
no undocumented suffix, so not every rendered entity with absent
documentation receives the suffix. -/
theorem C8_counterexample :
    format_module_summary .NONE true (fun _ => true)
        (.mk "pkg" "pkg" none "D" [] [] [⟨"f", some "othermod", none⟩]) =
      ["pkg", "  othermod.f"] ∧
    _is_documented_opt (none : Option String) = false ∧
    ("  othermod.f").endsWith " (undocumented)" = false ∧
    markedLineCount (format_module_summary .NONE true (fun _ => true)
        (.mk "pkg" "pkg" none "D" [] [] [⟨"f", some "othermod", none⟩])) = 0 := by
  refine ⟨rfl, rfl, ?_, ?_⟩ <;> decide

theorem suffix_append_cases {α : Type*} :
    ∀ (x : List α) {l y : List α}, l <:+ x ++ y →
      l <:+ y ∨ ∃ x', x' <:+ x ∧ x' ≠ [] ∧ l = x' ++ y
  | [], _, _, h => Or.inl h
  | a :: x, l, y, h => by
    rcases List.suffix_cons_iff.mp h with h | h
    · exact Or.inr ⟨a :: x, List.suffix_refl _, List.cons_ne_nil a x, h⟩
    · rcases suffix_append_cases x h with h | ⟨x', hx', hne, hl⟩
      · exact Or.inl h
      · exact Or.inr ⟨x', hx'.trans (List.suffix_cons a x), hne, hl⟩

theorem undocMarked_iff (l : String) :
    undocMarked l = true ↔ "(undocumented)".data <:+ l.data := by
  rw [undocMarked]
  exact List.isSuffixOf_iff_suffix

theorem undocMarked_false (l : String) :
    undocMarked l = false ↔ ¬ "(undocumented)".data <:+ l.data := by
  rw [← undocMarked_iff]
  cases undocMarked l <;> simp

/-- Appending the real suffix marks the line. -/
theorem undocMarked_append_suffix (s : String) :
    undocMarked (s ++ " (undocumented)") = true := by
  rw [undocMarked_iff, String.data_append]
  have h1 : "(undocumented)".data <:+ " (undocumented)".data := by
    rw [← List.isSuffixOf_iff_suffix]
    decide
  exact h1.trans (List.suffix_append _ _)

/-- Appending the empty status suffix does not change the marker. -/
theorem undocMarked_append_empty (s : String) :
    undocMarked (s ++ "") = undocMarked s := by
  rw [undocMarked, undocMarked, String.data_append]
  rw [show ("" : String).data = [] from rfl, List.append_nil]

/-- The exports marker never produces the undocumented marker. -/
theorem undocMarked_append_all (s : String) (h : undocMarked s = false) :
    undocMarked (s ++ " (__all__)") = false := by
  rw [undocMarked_false] at h ⊢
  rw [String.data_append]
  intro hc
  rcases suffix_append_cases _ hc with hc | ⟨x', _, hne, hl⟩
  · have := hc.length_le
    simp at this
  · have : " (__all__)".data <:+ "(undocumented)".data := by
      rw [hl]
      exact List.suffix_append _ _
    rw [← List.isSuffixOf_iff_suffix] at this
    exact absurd this (by decide)

/-- A method-line core `name()` never carries the marker. -/
theorem undocMarked_append_parens (s : String) :
    undocMarked (s ++ "()") = false := by
  rw [undocMarked_false, String.data_append]
  intro hc
  rcases suffix_append_cases _ hc with hc | ⟨x', _, hne, hl⟩
  · have := hc.length_le
    simp at this
  · have : "()".data <:+ "(undocumented)".data := by
      rw [hl]
      exact List.suffix_append _ _
    rw [← List.isSuffixOf_iff_suffix] at this
    exact absurd this (by decide)

/-- An annotation line `.name` is marked only when the bare name is. -/
theorem undocMarked_dot_name (n : String) (h : undocMarked n = false) :
    undocMarked ("." ++ n) = false := by
  rw [undocMarked_false] at h ⊢
  rw [String.data_append]
  intro hc
  rw [show ("." : String).data = ['.'] from rfl] at hc
  rcases suffix_append_cases _ hc with hc | ⟨x', hx', hne, hl⟩
  · exact h hc
  · have hx : x' = ['.'] := by
      rcases List.suffix_cons_iff.mp hx' with h1 | h1
      · exact h1
      · exact absurd (List.suffix_nil.mp h1) hne
    rw [hx] at hl
    have : ('.' : Char) ∈ "(undocumented)".data := by
      rw [hl]
      exact List.mem_append_left _ (List.mem_singleton_self _)
    exact absurd this (by decide)

/-- A dotted external name `mod.name` is marked only when the bare trailing
name is. -/
theorem undocMarked_dotted (mn n : String) (h : undocMarked n = false) :
    undocMarked (mn ++ "." ++ n) = false := by
  rw [undocMarked_false] at h ⊢
  rw [String.data_append, String.data_append,
    show ("." : String).data = ['.'] from rfl]
  intro hc
  rcases suffix_append_cases _ hc with hc | ⟨x', hx', hne, hl⟩
  · exact h hc
  · rcases List.eq_nil_or_concat x' with rfl | ⟨x'', c, rfl⟩
    · exact hne rfl
    · rw [List.concat_eq_append] at hx' hl
      rcases hx' with ⟨t, ht⟩
      rw [← List.append_assoc] at ht
      have hdot : c = '.' := by
        have h2 := (List.append_inj' ht (by simp)).2
        injection h2
      have : ('.' : Char) ∈ "(undocumented)".data := by
        rw [hl, hdot]
        exact List.mem_append_left _ (List.mem_append_right _ (List.mem_singleton_self _))
      exact absurd this (by decide)

/-- Prepending the indentation unit does not change the marker. -/
theorem undocMarked_indent (l : String) :
    undocMarked (_INDENT ++ l) = undocMarked l := by
  cases hm : undocMarked l with
  | true =>
    rw [undocMarked_iff] at hm ⊢
    rw [String.data_append]
    exact hm.trans (List.suffix_append _ _)
  | false =>
    rw [undocMarked_false] at hm ⊢
    rw [String.data_append]
    intro hc
    rw [show _INDENT.data = [' ', ' '] from rfl] at hc
    rcases suffix_append_cases _ hc with hc | ⟨x', hx', hne, hl⟩
    · exact hm hc
    · have hprefix : x' <+: "(undocumented)".data := ⟨l.data, hl.symm⟩
      rcases List.suffix_cons_iff.mp hx' with h1 | h1
    
      · rw [h1] at hprefix
        rcases hprefix with ⟨t, ht⟩
        have : (' ' : Char) = '(' := by
          have := congrArg (fun l => l.head?) ht
          simpa using this.symm
        exact absurd this (by decide)
      · rcases List.suffix_cons_iff.mp h1 with h2 | h2
        · rw [h2] at hprefix
          rcases hprefix with ⟨t, ht⟩
          have : (' ' : Char) = '(' := by
            have := congrArg (fun l => l.head?) ht
            simpa using this.symm
          exact absurd this (by decide)
        · rw [List.suffix_nil.mp h2] at hne
          exact hne rfl

theorem markedLineCount_append (a b : List String) :
    markedLineCount (a ++ b) = markedLineCount a + markedLineCount b := by
  rw [markedLineCount, markedLineCount, markedLineCount, List.filter_append,
    List.length_append]

theorem markedLineCount_cons (x : String) (rest : List String) :
    markedLineCount (x :: rest) =
      (if undocMarked x then 1 else 0) + markedLineCount rest := by
  rw [markedLineCount, markedLineCount, List.filter_cons]
  by_cases h : undocMarked x = true <;> simp [h] <;> omega

theorem markedLineCount_indent (lines : List String) :
    markedLineCount (lines.map fun l => _INDENT ++ l) = markedLineCount lines := by
  rw [markedLineCount, List.filter_map, List.length_map, markedLineCount]
  congr 1
  refine List.filter_congr fun a _ => ?_
  show undocMarked (_INDENT ++ a) = undocMarked a
  exact undocMarked_indent a

theorem markedLineCount_flatMap {α : Type*} (g : α → List String) :
    ∀ l : List α,
      markedLineCount (l.flatMap g) = (l.map fun x => markedLineCount (g x)).sum
  | [] => rfl
  | a :: l => by
    rw [List.flatMap_cons, markedLineCount_append, List.map_cons, List.sum_cons,
      markedLineCount_flatMap g l]

theorem markedLineCount_zero (lines : List String)
    (h : ∀ l ∈ lines, undocMarked l = false) : markedLineCount lines = 0 := by
  have h0 : lines.filter undocMarked = [] :=
    List.filter_eq_nil_iff.mpr fun l hl => by simp [h l hl]
  rw [markedLineCount, h0]
  rfl

theorem snippet_mem_splitlines {l : String} {doc : Option String}
    {dd : DocstringDetail} (h : l ∈ _docstring_snippet doc dd) :
    l ∈ pySplitlines (doc.getD "") := by
  match dd, doc with
  | .NONE, _ => exact absurd h (List.not_mem_nil l)
  | .ONE_LINE, none => exact absurd h (List.not_mem_nil l)
  | .FULL, none => exact absurd h (List.not_mem_nil l)
  | .ONE_LINE, some d =>
    by_cases hd : d = ""
    · rw [_docstring_snippet] at h
      rw [if_pos hd] at h
      exact absurd h (List.not_mem_nil l)
    · rw [_docstring_snippet, if_neg hd] at h
      have hne : pySplitlines d ≠ [] :=
        pySplitlines_ne_nil d fun hdata => hd (String.ext hdata)
      rw [Option.getD_some]
      cases hl : pySplitlines d with
      | nil => exact absurd hl hne
      | cons x xs =>
        rw [hl] at h
        rw [List.headD_cons, List.mem_singleton] at h
        rw [h]
        exact List.mem_cons_self x xs
  | .FULL, some d =>
    by_cases hd : d = ""
    · rw [_docstring_snippet, if_pos hd] at h
      exact absurd h (List.not_mem_nil l)
    · rw [_docstring_snippet, if_neg hd] at h
      rw [Option.getD_some]
      exact h

theorem snippet_unmarked {doc : Option String} {dd : DocstringDetail}
    (h : cleanDoc doc = true) :
    ∀ l ∈ _docstring_snippet doc dd, undocMarked l = false := by
  intro l hl
  rw [cleanDoc, List.all_eq_true] at h
  have h2 := h l (snippet_mem_splitlines hl)
  simpa using h2

theorem markedLineCount_snippet {doc : Option String} {dd : DocstringDetail}
    (h : cleanDoc doc = true) :
    markedLineCount (_docstring_snippet doc dd) = 0 :=
  markedLineCount_zero _ (snippet_unmarked h)

theorem markedLineCount_function_entry (dd : DocstringDetail) (ic : Bool)
    (p : String → Bool) (qn : String) (f : PyFunction)
    (hname : undocMarked f.name = false) (hdoc : cleanDoc f.doc = true) :
    markedLineCount (_format_function_entry dd ic p qn f) =
      undocCountFunction p qn f := by
  rw [_format_function_entry, undocCountFunction]
  by_cases hp : p f.name = true
  · simp only [hp, Bool.not_true, Bool.false_eq_true, if_false, Bool.true_and]
    by_cases hsw : pyStartsWith (f.modName.getD "") qn = true
    · rw [if_pos hsw, if_pos hsw, markedLineCount_cons,
        markedLineCount_zero _ (snippet_unmarked hdoc)]
      by_cases hdoc2 : _is_documented_opt f.doc = true
      · rw [if_pos hdoc2, _documented_status_opt, if_pos hdoc2,
          undocMarked_append_empty, hname]
        rfl
      · rw [if_neg hdoc2, _documented_status_opt, if_neg hdoc2,
          undocMarked_append_suffix]
        rfl
    · rw [if_neg hsw, if_neg hsw]
      by_cases hic : ic = true
      · rw [if_pos hic, markedLineCount_cons, undocMarked_dotted _ _ hname]
        rfl
      · rw [if_neg hic]
        rfl
  · have hp' : p f.name = false := by revert hp; cases p f.name <;> simp
    rw [hp']
    rfl

theorem markedLineCount_class_members (dd : DocstringDetail)
    (p : String → Bool) (c : PyClass) (hc : cleanClass c = true) :
    markedLineCount (_format_class_members dd p c) =
      (c.members.map (undocCountMember p)).sum := by
  rw [cleanClass, Bool.and_eq_true, Bool.and_eq_true] at hc
  obtain ⟨⟨hn, hann⟩, hmem⟩ := hc
  rw [_format_class_members, markedLineCount_append]
  have h1 : markedLineCount
      (c.annotations.flatMap fun n => if p n then ["." ++ n] else []) = 0 := by
    apply markedLineCount_zero
    intro l hl
    rw [List.mem_flatMap] at hl
    rcases hl with ⟨n, hn2, hl⟩
    by_cases hpn : p n = true
    · rw [if_pos hpn, List.mem_singleton] at hl
      rw [hl]
      apply undocMarked_dot_name
      have h3 := List.all_eq_true.mp hann n hn2
      simpa using h3
    · rw [if_neg hpn] at hl
      exact absurd hl (List.not_mem_nil l)
  rw [h1, Nat.zero_add, markedLineCount_flatMap]
  rw [((List.perm_insertionSort clsMemberLe c.members).map _).sum_eq]
  congr 1
  apply List.map_congr_left
  rintro ⟨n, v⟩ hnv
  have hcm := List.all_eq_true.mp hmem ⟨n, v⟩ hnv
  rw [Bool.and_eq_true] at hcm
  have hn2 : undocMarked n = false := by simpa using hcm.1
  by_cases hp : p n = true
  · cases v with
    | attr =>
      show markedLineCount (if !(p n) then [] else [n]) = _
      rw [undocCountMember]
      simp only [hp, Bool.not_true, Bool.false_eq_true, if_false, if_true]
      rw [markedLineCount_cons, hn2]
      rfl
    | func doc =>
      have hdoc : cleanDoc doc = true := by simpa using hcm.2
      show markedLineCount (if !(p n) then []
        else (n ++ "()" ++ _documented_status_opt doc)
          :: (_docstring_snippet doc dd).map (fun l => _INDENT ++ l)) = _
      rw [undocCountMember]
      simp only [hp, Bool.not_true, Bool.false_eq_true, if_false, if_true]
      rw [markedLineCount_cons, markedLineCount_indent, markedLineCount_snippet hdoc]
      by_cases hd2 : _is_documented_opt doc = true
      · rw [_documented_status_opt, if_pos hd2, undocMarked_append_empty,
          undocMarked_append_parens, if_pos hd2]
        rfl
      · rw [_documented_status_opt, if_neg hd2, undocMarked_append_suffix,
          if_neg hd2]
        rfl
  · have hp' : p n = false := by revert hp; cases p n <;> simp
    show markedLineCount (if !(p n) then [] else _) = _
    rw [undocCountMember, hp']
    rfl

theorem markedLineCount_class_entry (dd : DocstringDetail) (ic : Bool)
    (p : String → Bool) (qn : String) (c : PyClass) (hc : cleanClass c = true) :
    markedLineCount (_format_class_entry dd ic p qn c) = undocCountClass p qn c := by
  have hname : undocMarked c.name = false := by
    have hc' := hc
    rw [cleanClass, Bool.and_eq_true, Bool.and_eq_true] at hc'
    simpa using hc'.1.1
  rw [_format_class_entry, undocCountClass]
  by_cases hp : p c.name = true
  · simp only [hp, Bool.not_true, Bool.false_eq_true, if_false, if_true]
    cases hm : c.modName with
    | none =>
      simp only [Option.getD_none]
      by_cases hskip : (!(pyStartsWith "" qn) && !ic) = true
      · rw [if_pos hskip]
        rfl
      · rw [if_neg hskip, _format_class_summary, hm]
        show markedLineCount [c.name] = 0
        rw [markedLineCount_cons, hname]
        rfl
    | some mn =>
      simp only [Option.getD_some]
      by_cases hsw : pyStartsWith mn qn = true
      · rw [if_pos hsw,
          if_neg (show ¬(!(pyStartsWith mn qn) && !ic) = true from by
            rw [hsw]; simp),
          _format_class_summary, hm]
        simp only [hsw, Bool.not_true, Bool.false_eq_true, if_false]
        rw [markedLineCount_cons, markedLineCount_indent,
          markedLineCount_class_members dd p c hc]
        by_cases hd2 : _is_documented_opt c.doc = true
        · rw [_documented_status_opt, if_pos hd2, undocMarked_append_empty,
            hname, if_pos hd2]
          rfl
        · rw [_documented_status_opt, if_neg hd2, undocMarked_append_suffix,
            if_neg hd2]
          rfl
      · have hsw' : pyStartsWith mn qn = false := by
          revert hsw; cases pyStartsWith mn qn <;> simp
        rw [if_neg hsw]
        by_cases hic : ic = true
        · rw [if_neg (show ¬(!(pyStartsWith mn qn) && !ic) = true from by
              rw [hsw', hic]; simp),
            _format_class_summary, hm]
          simp only [hsw', Bool.not_false, if_true]
          rw [markedLineCount_cons, undocMarked_dotted _ _ hname]
          rfl
        · have hic' : ic = false := by revert hic; cases ic <;> simp
          rw [if_pos (show (!(pyStartsWith mn qn) && !ic) = true from by
            rw [hsw', hic']; rfl)]
          rfl
  · have hp' : p c.name = false := by revert hp; cases p c.name <;> simp
    rw [hp']
    rfl

theorem markedLineCount_formatSubmodules (dd : DocstringDetail) (ic : Bool)
    (p : String → Bool) :
    ∀ subs : List ModuleSummary, cleanSubs subs = true →
      (∀ s ∈ subs, cleanTree s = true →
        markedLineCount (format_module_summary dd ic p s) = undocCount p s) →
      markedLineCount (formatSubmodules dd ic p subs) = undocCountSubs p subs
  | [], _, _ => rfl
  | s :: rest, hcl, ih => by
    simp only [cleanSubs, Bool.and_eq_true] at hcl
    rw [formatSubmodules, undocCountSubs, markedLineCount_append]
    congr 1
    · by_cases hp : p s.name = true
      · rw [if_pos hp, if_pos hp]
        exact ih s (List.mem_cons_self s rest) hcl.1
      · rw [if_neg hp, if_neg hp]
        rfl
    · exact markedLineCount_formatSubmodules dd ic p rest hcl.2
        fun s' hs' => ih s' (List.mem_cons_of_mem s hs')

/-- C8 amended: whenever no name or docstring line in the tree itself ends in
`"(undocumented)"`, the number of output lines carrying the undocumented
marker equals the number of fully-rendered entities whose documentation is
empty or absent — one marker per rendered module line with empty docstring,
per rendered natively-declared undocumented class, per rendered undocumented
method, and per rendered natively-declared undocumented function; documented
entities, abbreviated leaf lines (foreign or module-less classes, imported
functions), plain attributes, annotations and docstring lines never carry
the suffix. -/
theorem C8_amended_suffix_count (dd : DocstringDetail) (ic : Bool)
    (p : String → Bool) (m : ModuleSummary) :
    cleanTree m = true →
      markedLineCount (format_module_summary dd ic p m) = undocCount p m := by
  induction m using ModuleSummary.ind with
  | h n q a d subs cs fs ih =>
    intro hclean
    simp only [cleanTree, Bool.and_eq_true] at hclean
    obtain ⟨⟨⟨⟨hn, hd⟩, hsubs⟩, hcs⟩, hfs⟩ := hclean
    rw [format_module_summary_eq, markedLineCount_cons, markedLineCount_append,
      markedLineCount_indent, markedLineCount_indent, _format_module_members,
      _format_nonmodule_members]
    simp only [ModuleSummary.name, ModuleSummary.qualname, ModuleSummary.all,
      ModuleSummary.doc, ModuleSummary.submodules, ModuleSummary.classes,
      ModuleSummary.functions]
    rw [markedLineCount_append, markedLineCount_append,
      markedLineCount_snippet (show cleanDoc (some d) = true from hd),
      markedLineCount_formatSubmodules dd ic p subs hsubs ih,
      markedLineCount_flatMap, markedLineCount_flatMap]
    have h3 : ((List.insertionSort (classLe q) cs).map fun c =>
        markedLineCount (_format_class_entry dd ic p q c)).sum =
        (cs.map (undocCountClass p q)).sum := by
      rw [((List.perm_insertionSort (classLe q) cs).map _).sum_eq]
      congr 1
      apply List.map_congr_left
      intro c hcel
      exact markedLineCount_class_entry dd ic p q c (List.all_eq_true.mp hcs c hcel)
    have h4 : (fs.map fun f =>
        markedLineCount (_format_function_entry dd ic p q f)).sum =
        (fs.map (undocCountFunction p q)).sum := by
      congr 1
      apply List.map_congr_left
      intro f hfel
      have hf := List.all_eq_true.mp hfs f hfel
      rw [Bool.and_eq_true] at hf
      exact markedLineCount_function_entry dd ic p q f (by simpa using hf.1) hf.2
    rw [h3, h4]
    have hhead : (if undocMarked (n ++ _all_status (.mk n q a d subs cs fs) ++
        _documented_status (.mk n q a d subs cs fs)) then 1 else 0) =
        (if d != "" then 0 else 1) := by
      rw [_all_status, _documented_status, _is_documented]
      simp only [ModuleSummary.all, ModuleSummary.doc]
      have hmn : undocMarked (n ++ (if a.isNone then "" else " (__all__)")) = false := by
        cases a with
        | none =>
          simp only [Option.isNone_none, if_true]
          rw [undocMarked_append_empty]
          simpa using hn
        | some l =>
          simp only [Option.isNone_some, Bool.false_eq_true, if_false]
          exact undocMarked_append_all n (by simpa using hn)
      by_cases hdoc : (d != "") = true
      · simp only [hdoc, if_true]
        rw [undocMarked_append_empty, hmn]
        rfl
      · have hdoc' : (d != "") = false := by
          revert hdoc; cases d != "" <;> simp
        simp only [hdoc', Bool.false_eq_true, if_false]
        rw [undocMarked_append_suffix]
        rfl
    rw [hhead]
    simp only [undocCount]
    omega

theorem C8_amended_suffix_count_witness :
    markedLineCount (format_module_summary .FULL true (fun _ => true)
        (.mk "pkg" "pkg" none ""
          [.mk "sub" "pkg.sub" none "docs" [] [] []]
          [⟨"A", some "pkg", none, ["x"], [("meth", .func none), ("attr1", .attr)]⟩,
           ⟨"Ext", some "other", none, [], []⟩]
          [⟨"f", some "pkg", none⟩, ⟨"g", some "other", none⟩])) =
      undocCount (fun _ => true)
        (.mk "pkg" "pkg" none ""
          [.mk "sub" "pkg.sub" none "docs" [] [] []]
          [⟨"A", some "pkg", none, ["x"], [("meth", .func none), ("attr1", .attr)]⟩,
           ⟨"Ext", some "other", none, [], []⟩]
          [⟨"f", some "pkg", none⟩, ⟨"g", some "other", none⟩]) :=
  C8_amended_suffix_count .FULL true (fun _ => true)
    (.mk "pkg" "pkg" none ""
      [.mk "sub" "pkg.sub" none "docs" [] [] []]
      [⟨"A", some "pkg", none, ["x"], [("meth", .func none), ("attr1", .attr)]⟩,
       ⟨"Ext", some "other", none, [], []⟩]
      [⟨"f", some "pkg", none⟩, ⟨"g", some "other", none⟩]) (by decide)
